import Mathlib

/-!
Shallow embedding of the crlEPH simulation core, translated from the
repository's Python sources:

* `src/archive/python_legacy/src/utils/toroidal.py` (toroidal geometry)
* `src/archive/python_legacy/src/utils/math_utils.py` (angle helpers)
* `src/src/perception/spm.py` (SaliencyPolarMap encoder and precision matrix)
* `src/src/control/eph.py` (sampling EPH controller)
* `src/archive/python_legacy/src/control/eph_gradient.py` (gradient controller)
* `src/archive/python_legacy/src/core/agent.py` (agent kinematics, haze deposit)
* `src/archive/python_legacy/src/core/environment.py` (collision resolution,
  haze grid decay)

Machine floats are modelled as real numbers (ℝ); the haze grid, whose
arithmetic is all rational, is modelled over ℚ so that its invariant is
decidable.  NumPy's in-place array mutation is modelled by explicit state
passing: a function that in Python writes into a caller-owned buffer returns,
alongside its result, the final contents of that buffer.
-/

namespace CrlEPH

open Real

/-- `np.sign` as used by `toroidal.py`: `1` for positive, `-1` for negative,
`0` for zero. -/
noncomputable def npSign (x : ℝ) : ℝ :=
  if 0 < x then 1 else if x < 0 then -1 else 0

/-- One axis of `toroidal_distance` (`toroidal.py` lines 17-25): the raw delta
`d`, wrapped by subtracting `sign(d) * extent` when `|d|` exceeds half the
world extent. -/
noncomputable def wrapDelta (d extent : ℝ) : ℝ :=
  if |d| > extent / 2 then d - npSign d * extent else d

/-- `toroidal_distance(p1, p2, width, height)` from
`src/archive/python_legacy/src/utils/toroidal.py`: returns the wrapped
displacement `(dx, dy)` and the Euclidean length of that wrapped displacement. -/
noncomputable def toroidal_distance (p1 p2 : ℝ × ℝ) (width height : ℝ) :
    ℝ × ℝ × ℝ :=
  let dx := wrapDelta (p2.1 - p1.1) width
  let dy := wrapDelta (p2.2 - p1.2) height
  (dx, dy, Real.sqrt (dx ^ 2 + dy ^ 2))

/-- The plain Euclidean distance between two points, the comparison point of
spec §8's first property. -/
noncomputable def euclid (p1 p2 : ℝ × ℝ) : ℝ :=
  Real.sqrt ((p2.1 - p1.1) ^ 2 + (p2.2 - p1.2) ^ 2)

lemma abs_wrapDelta_le (d extent : ℝ) (hext : 0 ≤ extent) :
    |wrapDelta d extent| ≤ |d| := by
  unfold wrapDelta npSign
  by_cases hw : |d| > extent / 2
  · rw [if_pos hw]
    rcases lt_trichotomy 0 d with hd | hd | hd
    · rw [if_pos hd]
      rw [abs_of_pos hd] at hw ⊢
      rw [abs_le]
      constructor
      · linarith
      · linarith
    · exfalso
      rw [← hd, abs_zero] at hw
      linarith
    · rw [if_neg (by linarith), if_pos hd]
      rw [abs_of_neg hd] at hw ⊢
      rw [abs_le]
      constructor
      · linarith
      · linarith
  · rw [if_neg hw]

lemma wrapDelta_of_no_wrap (d extent : ℝ) (h : |d| ≤ extent / 2) :
    wrapDelta d extent = d := by
  unfold wrapDelta
  rw [if_neg (not_lt.mpr h)]

/-- C6: the distance returned by `toroidal_distance` never exceeds the
Euclidean distance between the two points, and the two agree whenever neither
axis delta exceeds half the corresponding world extent. -/
theorem toroidal_distance_le_euclid (p1 p2 : ℝ × ℝ) (width height : ℝ)
    (hw : 0 ≤ width) (hh : 0 ≤ height) :
    (toroidal_distance p1 p2 width height).2.2 ≤ euclid p1 p2 ∧
      (|p2.1 - p1.1| ≤ width / 2 → |p2.2 - p1.2| ≤ height / 2 →
        (toroidal_distance p1 p2 width height).2.2 = euclid p1 p2) := by
  constructor
  · unfold toroidal_distance euclid
    apply Real.sqrt_le_sqrt
    have hx := abs_wrapDelta_le (p2.1 - p1.1) width hw
    have hy := abs_wrapDelta_le (p2.2 - p1.2) height hh
    have hx2 : wrapDelta (p2.1 - p1.1) width ^ 2 ≤ (p2.1 - p1.1) ^ 2 := by
      rw [← sq_abs (wrapDelta (p2.1 - p1.1) width), ← sq_abs (p2.1 - p1.1)]
      exact pow_le_pow_left₀ (abs_nonneg _) hx 2
    have hy2 : wrapDelta (p2.2 - p1.2) height ^ 2 ≤ (p2.2 - p1.2) ^ 2 := by
      rw [← sq_abs (wrapDelta (p2.2 - p1.2) height), ← sq_abs (p2.2 - p1.2)]
      exact pow_le_pow_left₀ (abs_nonneg _) hy 2
    exact add_le_add hx2 hy2
  · intro hx hy
    unfold toroidal_distance euclid
    rw [wrapDelta_of_no_wrap _ _ hx, wrapDelta_of_no_wrap _ _ hy]

/-- C6 witness: concrete instance at `p1 = (0,0)`, `p2 = (3,4)` in a `100×100`
world, where no wrapping occurs. -/
theorem toroidal_distance_le_euclid_witness :
    (toroidal_distance (0, 0) (3, 4) 100 100).2.2 ≤ euclid (0, 0) (3, 4) ∧
      (|(3 : ℝ) - 0| ≤ 100 / 2 → |(4 : ℝ) - 0| ≤ 100 / 2 →
        (toroidal_distance (0, 0) (3, 4) 100 100).2.2 = euclid (0, 0) (3, 4)) :=
  toroidal_distance_le_euclid (0, 0) (3, 4) 100 100 (by norm_num) (by norm_num)

/-! ### Environmental haze grid (environment.py line 16 and 36, agent.py line 89)

The grid holds one rational per cell; cells outside the allocated numpy array
are never read or written, so the grid is modelled as a total function. -/

/-- The haze grid: one value per integer cell index pair. -/
def HazeGrid : Type := ℕ → ℕ → ℚ

/-- `np.zeros(...)`: the grid the `Environment` constructor allocates
(`environment.py` line 16). -/
def initHazeGrid : HazeGrid := fun _ _ => 0

/-- `self.haze_grid *= 0.99` (`environment.py` line 36): multiplicative decay
of every cell, once per environment step. -/
def decayHazeGrid (g : HazeGrid) : HazeGrid := fun i j => g i j * 0.99

/-- `environment.haze_grid[gx, gy] = min(1.0, environment.haze_grid[gx, gy] + 0.1)`
(`agent.py` line 89): the bounded deposit one agent makes at its occupied cell
during its decide step. -/
def depositHaze (g : HazeGrid) (x y : ℕ) : HazeGrid := fun i j =>
  if i = x ∧ j = y then min 1 (g x y + 0.1) else g i j

/-- The grids reachable during a run: the initial all-zero grid, closed under
the per-step decay and the per-agent deposit. -/
inductive ReachableHaze : HazeGrid → Prop
  | init : ReachableHaze initHazeGrid
  | decay {g : HazeGrid} : ReachableHaze g → ReachableHaze (decayHazeGrid g)
  | deposit {g : HazeGrid} (x y : ℕ) : ReachableHaze g →
      ReachableHaze (depositHaze g x y)

/-- C10: every cell of the environmental haze grid stays in `[0, 1]`
throughout a run — the initial grid is all zeros, decay multiplies each cell
by `0.99`, and a deposit sets the occupied cell to `min(1, current + 0.1)`. -/
theorem hazeGrid_cells_in_unit_interval {g : HazeGrid}
    (hg : ReachableHaze g) : ∀ i j, 0 ≤ g i j ∧ g i j ≤ 1 := by
  induction hg with
  | init => intro i j; exact ⟨le_refl 0, by simp [initHazeGrid]⟩
  | decay _ ih =>
      intro i j
      obtain ⟨h0, h1⟩ := ih i j
      unfold decayHazeGrid
      constructor
      · positivity
      · nlinarith
  | deposit x y _ ih =>
      intro i j
      unfold depositHaze
      by_cases h : i = x ∧ j = y
      · rw [if_pos h]
        obtain ⟨h0, _⟩ := ih x y
        constructor
        · apply le_min (by norm_num) (by linarith)
        · exact min_le_left _ _
      · rw [if_neg h]
        exact ih i j

/-- C10 witness: the bound evaluated on the concrete grid obtained by one
decay and one deposit at cell `(0, 0)`. -/
theorem hazeGrid_cells_in_unit_interval_witness :
    0 ≤ depositHaze (decayHazeGrid initHazeGrid) 0 0 0 0 ∧
      depositHaze (decayHazeGrid initHazeGrid) 0 0 0 0 ≤ 1 :=
  hazeGrid_cells_in_unit_interval
    (ReachableHaze.deposit 0 0 (ReachableHaze.decay ReachableHaze.init)) 0 0

/-! ### Agent velocity bound (agent.py lines 36-40, eph_gradient.py lines 84-88) -/

/-- The norm (`np.linalg.norm`) of a 2D vector. -/
noncomputable def norm2 (v : ℝ × ℝ) : ℝ := Real.sqrt (v.1 ^ 2 + v.2 ^ 2)

/-- `Agent.set_velocity` (`agent.py` lines 36-40): store the requested
velocity, then rescale it to norm `max_speed` when its norm `speed` exceeds
`max_speed`. -/
noncomputable def set_velocity (max_speed vx vy : ℝ) : ℝ × ℝ :=
  if norm2 (vx, vy) > max_speed then
    (vx / norm2 (vx, vy) * max_speed, vy / norm2 (vx, vy) * max_speed)
  else (vx, vy)

/-- The max-speed clamp at the end of each gradient-descent iteration
(`eph_gradient.py` lines 86-88): `speed = ‖a‖ + 1e-8`, and when
`speed > max_speed` the action is rescaled by `max_speed / speed`. -/
noncomputable def clampAction (max_speed : ℝ) (a : ℝ × ℝ) : ℝ × ℝ :=
  if norm2 a + 1e-8 > max_speed then
    (a.1 / (norm2 a + 1e-8) * max_speed, a.2 / (norm2 a + 1e-8) * max_speed)
  else a

lemma norm2_nonneg (v : ℝ × ℝ) : 0 ≤ norm2 v := Real.sqrt_nonneg _

lemma norm2_rescale (x y s m : ℝ) (hs : 0 < s) (hm : 0 ≤ m) :
    norm2 (x / s * m, y / s * m) = norm2 (x, y) / s * m := by
  unfold norm2
  have h1 : (x / s * m) ^ 2 + (y / s * m) ^ 2 =
      (x ^ 2 + y ^ 2) * (m / s) ^ 2 := by
    field_simp
    ring
  rw [h1, Real.sqrt_mul (by positivity), Real.sqrt_sq (by positivity)]
  field_simp

/-- C8: after `set_velocity` the velocity norm is at most `max_speed` — with a
requested norm above `max_speed` it is rescaled to exactly `max_speed` — and
the clamp inside the gradient controller's descent loop likewise leaves the
action norm at most `max_speed`. -/
theorem velocity_bounded_by_max_speed (max_speed vx vy : ℝ) (a : ℝ × ℝ)
    (hms : 0 ≤ max_speed) :
    norm2 (set_velocity max_speed vx vy) ≤ max_speed ∧
      (norm2 (vx, vy) > max_speed →
        norm2 (set_velocity max_speed vx vy) = max_speed) ∧
      norm2 (clampAction max_speed a) ≤ max_speed := by
  have hset : norm2 (vx, vy) > max_speed →
      norm2 (set_velocity max_speed vx vy) = max_speed := by
    intro h
    have hpos : 0 < norm2 (vx, vy) := lt_of_le_of_lt hms h
    unfold set_velocity
    rw [if_pos h, norm2_rescale vx vy (norm2 (vx, vy)) max_speed hpos hms,
      div_self (ne_of_gt hpos), one_mul]
  refine ⟨?_, hset, ?_⟩
  · by_cases h : norm2 (vx, vy) > max_speed
    · exact le_of_eq (hset h)
    · unfold set_velocity
      rw [if_neg h]
      exact not_lt.mp h
  · unfold clampAction
    by_cases h : norm2 a + 1e-8 > max_speed
    · rw [if_pos h]
      have hs : (0 : ℝ) < norm2 a + 1e-8 := by
        have := norm2_nonneg a
        norm_num
        linarith
      have ha : a = (a.1, a.2) := rfl
      rw [norm2_rescale a.1 a.2 (norm2 a + 1e-8) max_speed hs hms, ← ha]
      have hfrac : norm2 a / (norm2 a + 1e-8) ≤ 1 := by
        rw [div_le_one hs]
        norm_num
      calc norm2 a / (norm2 a + 1e-8) * max_speed ≤ 1 * max_speed :=
            mul_le_mul_of_nonneg_right hfrac hms
        _ = max_speed := one_mul max_speed
    · rw [if_neg h]
      push_neg at h
      have h8 : (0 : ℝ) ≤ 1e-8 := by norm_num
      linarith

/-- C8 witness: `max_speed = 50`, requested velocity `(60, 80)` of norm `100`,
gradient action `(30, 40)`. -/
theorem velocity_bounded_by_max_speed_witness :
    norm2 (set_velocity 50 60 80) ≤ 50 ∧
      (norm2 (60, 80) > 50 → norm2 (set_velocity 50 60 80) = 50) ∧
      norm2 (clampAction 50 (30, 40)) ≤ 50 :=
  velocity_bounded_by_max_speed 50 60 80 (30, 40) (by norm_num)

/-! ### Agent-obstacle overlap resolution (environment.py lines 113-138) -/

/-- The mutable state of one agent that `Environment._resolve_collisions`
touches. -/
structure AgentState where
  pos : ℝ × ℝ
  vel : ℝ × ℝ

/-- The agent-obstacle pass of `Environment._resolve_collisions`
(`environment.py` lines 113-138) for one agent and one circular obstacle:
`(dx, dy, dist) = toroidal_distance(agent.position, (ox, oy), ...)`;
when `dist < agent.radius + obstacle.radius` and `dist > 0`, the agent's
position is moved by `overlap` along `n = (dx, dy)/dist`, and when
`v_n = v · n < 0` the component `v_n · n` is subtracted from the velocity.
The obstacle itself is a plain dict and is never written. -/
noncomputable def resolveObstacleCollision (a : AgentState) (aradius : ℝ)
    (obsCenter : ℝ × ℝ) (orad width height : ℝ) : AgentState :=
  let dx := (toroidal_distance a.pos obsCenter width height).1
  let dy := (toroidal_distance a.pos obsCenter width height).2.1
  let dist := (toroidal_distance a.pos obsCenter width height).2.2
  let min_dist := aradius + orad
  if dist < min_dist ∧ 0 < dist then
    let overlap := min_dist - dist
    let nx := dx / dist
    let ny := dy / dist
    let pos' := (a.pos.1 + nx * overlap, a.pos.2 + ny * overlap)
    let v_n := a.vel.1 * nx + a.vel.2 * ny
    if v_n < 0 then ⟨pos', (a.vel.1 - v_n * nx, a.vel.2 - v_n * ny)⟩
    else ⟨pos', a.vel⟩
  else a

lemma toroidal_distance_eval (p1 p2 : ℝ × ℝ) (w h : ℝ)
    (h1 : |p2.1 - p1.1| ≤ w / 2) (h2 : |p2.2 - p1.2| ≤ h / 2) :
    toroidal_distance p1 p2 w h =
      (p2.1 - p1.1, p2.2 - p1.2,
        Real.sqrt ((p2.1 - p1.1) ^ 2 + (p2.2 - p1.2) ^ 2)) := by
  unfold toroidal_distance
  rw [wrapDelta_of_no_wrap _ _ h1, wrapDelta_of_no_wrap _ _ h2]

/-- C1, evaluated at the failing input: an agent of radius `5` at `(0, 0)`
with velocity `(-3, 0)` (receding from the obstacle), overlapping a circular
obstacle of radius `5` centred at `(8, 0)`, in a `1000×1000` world.  The
resolution pass moves the agent to `(2, 0)` — two units further *toward* the
obstacle centre, shrinking the toroidal distance from `8` to `6` — and zeroes
the agent's receding velocity, leaving `(0, 0)`. -/
theorem resolveObstacleCollision_moves_agent_inward :
    resolveObstacleCollision ⟨(0, 0), (-3, 0)⟩ 5 (8, 0) 5 1000 1000 =
        ⟨(2, 0), (0, 0)⟩ ∧
      (toroidal_distance (2, 0) (8, 0) 1000 1000).2.2 <
        (toroidal_distance (0, 0) (8, 0) 1000 1000).2.2 := by
  have hd8 : toroidal_distance (0, 0) (8, 0) 1000 1000 = (8, 0, 8) := by
    rw [toroidal_distance_eval (0, 0) (8, 0) 1000 1000 (by norm_num) (by norm_num)]
    norm_num
    rw [show (64 : ℝ) = 8 ^ 2 by norm_num, Real.sqrt_sq (by norm_num)]
  have hd6 : toroidal_distance (2, 0) (8, 0) 1000 1000 = (6, 0, 6) := by
    rw [toroidal_distance_eval (2, 0) (8, 0) 1000 1000 (by norm_num) (by norm_num)]
    norm_num
    rw [show (36 : ℝ) = 6 ^ 2 by norm_num, Real.sqrt_sq (by norm_num)]
  constructor
  · unfold resolveObstacleCollision
    rw [show (AgentState.mk (0, 0) (-3, 0)).pos = ((0 : ℝ), (0 : ℝ)) from rfl]
    rw [hd8]
    norm_num
  · rw [hd6, hd8]
    norm_num

/-! ### Angle helpers (math_utils.py) and the SPM encoder (spm.py) -/

/-- Python's float `a % m` for a positive modulus: `a - m * ⌊a / m⌋`. -/
noncomputable def pymod (a m : ℝ) : ℝ := a - m * ⌊a / m⌋

/-- `normalize_angle` (`math_utils.py` lines 3-7): `(angle + π) % (2π) - π`,
mapping into `[-π, π)`. -/
noncomputable def normalize_angle (angle : ℝ) : ℝ :=
  pymod (angle + Real.pi) (2 * Real.pi) - Real.pi

/-- `np.arctan2(y, x)`: the argument of the complex number `x + y·i`. -/
noncomputable def arctan2 (y x : ℝ) : ℝ := Complex.arg ⟨x, y⟩

/-- An SPM tensor of shape `(3, Nr, Ntheta)`, as a total function on indices;
only indices inside the shape are ever written or read. -/
def Tensor : Type := ℕ → ℕ → ℕ → ℝ

/-- The configuration of `SaliencyPolarMap.__init__`. -/
structure SPMCfg where
  Nr : ℕ
  Ntheta : ℕ
  d_max : ℝ
  sigma_r : ℝ
  sigma_theta : ℝ

/-- One accumulation `tensor[0,r,t] += w; tensor[1,r,t] += w·v_r;
tensor[2,r,t] += w·v_t` (`spm.py` lines 140-142). -/
def addAt (T : Tensor) (r t : ℕ) (w wr wt : ℝ) : Tensor := fun c i j =>
  if c ≤ 2 ∧ i = r ∧ j = t then
    T c i j + (if c = 0 then w else if c = 1 then wr else wt)
  else T c i j

/-- One iteration of the Gaussian-splatting double loop of
`SaliencyPolarMap._add_to_tensor` (`spm.py` lines 121-142) at integer kernel
cell `(r, t)`: skipped unless `0 ≤ r < Nr`; the angular index wraps as
`t % Ntheta`; the weight is the 2D Gaussian in radial-bin and (wrapped)
angular-bin distance. -/
noncomputable def splatCell (cfg : SPMCfg) (r_center angle v_r v_t : ℝ)
    (T : Tensor) (r t : ℤ) : Tensor :=
  if 0 ≤ r ∧ r < (cfg.Nr : ℤ) then
    let t_wrapped := t % (cfg.Ntheta : ℤ)
    let dr := (r : ℝ) - r_center
    let bin_angle := ((t_wrapped : ℝ) / cfg.Ntheta) * (2 * Real.pi) - Real.pi
    let diff_angle := normalize_angle (bin_angle - angle)
    let dt_eff := diff_angle / (2 * Real.pi) * cfg.Ntheta
    let weight := Real.exp (-(dr ^ 2) / (2 * cfg.sigma_r ^ 2) -
      (dt_eff ^ 2) / (2 * cfg.sigma_theta ^ 2))
    addAt T r.toNat t_wrapped.toNat weight (weight * v_r) (weight * v_t)
  else T

/-- The full Gaussian splat of one entity (`spm.py` lines 115-142): kernel
half-width `k_size = 2` around `(round r_center, round theta_center)`.
`int(np.round(..))` is modelled by `round`; the two differ only at exact
half-integers (banker's rounding vs round-half-up), which no theorem below
exercises. -/
noncomputable def splat (cfg : SPMCfg) (r_center theta_center angle v_r v_t : ℝ)
    (T : Tensor) : Tensor :=
  let r_idx_base := round r_center
  let t_idx_base := round theta_center
  (List.range 5).foldl (fun Tr i =>
    (List.range 5).foldl (fun Tt j =>
      splatCell cfg r_center angle v_r v_t Tt (r_idx_base - 2 + Int.ofNat i)
        (t_idx_base - 2 + Int.ofNat j)) Tr) T

/-- The angular mapping of `_add_to_tensor` (`spm.py` line 113):
`theta_center = (angle + π) / (2π) · Ntheta`. -/
noncomputable def thetaCenter (cfg : SPMCfg) (angle : ℝ) : ℝ :=
  (angle + Real.pi) / (2 * Real.pi) * cfg.Ntheta

/-- `SaliencyPolarMap._add_to_tensor` (`spm.py` lines 90-142): radial mapping
is `r_center = 0` for `dist ≤ ps`; otherwise, guarded by an early return when
`d_max ≤ ps`, the logarithmic mapping
`r_center = 1 + scale · (ln dist − ln ps)` with
`scale = (Nr − 2) / (ln d_max − ln ps + 1e-6)`; then the Gaussian splat. -/
noncomputable def addToTensor (cfg : SPMCfg) (T : Tensor)
    (dist angle v_r v_t ps : ℝ) : Tensor :=
  if dist ≤ ps then
    splat cfg 0 (thetaCenter cfg angle) angle v_r v_t T
  else if cfg.d_max ≤ ps then T
  else
    splat cfg
      (1 + ((cfg.Nr : ℝ) - 2) / (Real.log cfg.d_max - Real.log ps + 1e-6) *
        (Real.log dist - Real.log ps))
      (thetaCenter cfg angle) angle v_r v_t T

/-- An entity of `environment.get_entities()`: another agent (position and
velocity) or a circular-obstacle dict (position only). -/
inductive Entity where
  | agentE (pos vel : ℝ × ℝ)
  | obstacleE (pos : ℝ × ℝ)

/-- The position of an entity. -/
def Entity.pos : Entity → ℝ × ℝ
  | .agentE p _ => p
  | .obstacleE p => p

/-- `SaliencyPolarMap.compute_spm` (`spm.py` lines 16-88) for an ego agent at
`egoPos` with velocity `egoVel`, heading `egoOrientation` and personal space
`ps`, over the list of the other entities (the loop's `entity is agent` test
skips the ego itself): toroidal displacement, bearing `arctan2 dy dx`,
ego-frame angle, skip beyond `d_max`, relative-velocity decomposition (a
static obstacle counts with relative velocity `-egoVel`), then
`_add_to_tensor`. -/
noncomputable def compute_spm (cfg : SPMCfg) (egoPos egoVel : ℝ × ℝ)
    (egoOrientation ps : ℝ) (others : List Entity) (width height : ℝ) :
    Tensor :=
  others.foldl (fun T e =>
    let dx := (toroidal_distance egoPos e.pos width height).1
    let dy := (toroidal_distance egoPos e.pos width height).2.1
    let dist := (toroidal_distance egoPos e.pos width height).2.2
    let angle := arctan2 dy dx
    let rel_angle := normalize_angle (angle - egoOrientation)
    if dist > cfg.d_max then T
    else
      let vrel := match e with
        | .agentE _ v => (v.1 - egoVel.1, v.2 - egoVel.2)
        | .obstacleE _ => (-egoVel.1, -egoVel.2)
      let v_radial := vrel.1 * Real.cos angle + vrel.2 * Real.sin angle
      let v_tangential := vrel.1 * (-Real.sin angle) + vrel.2 * Real.cos angle
      addToTensor cfg T dist rel_angle v_radial v_tangential ps)
    (fun _ _ _ => 0)

/-- The representative distance `get_precision_matrix` recovers for radial bin
`r` (`spm.py` lines 154-164): `0` for bin `0`, otherwise
`exp((r - 1)/scale + ln ps)`. -/
noncomputable def precisionBinDist (cfg : SPMCfg) (ps : ℝ) (r : ℕ) : ℝ :=
  if r = 0 then 0
  else
    Real.exp (((r : ℝ) - 1) /
      (((cfg.Nr : ℝ) - 2) / (Real.log cfg.d_max - Real.log ps + 1e-6)) +
      Real.log ps)

/-- `SaliencyPolarMap.get_precision_matrix` (`spm.py` lines 144-170) with its
hard-coded `tau = 5.0`: every row `r` is filled with
`sigmoid((ps − dist_r) / 5)`. -/
noncomputable def get_precision_matrix (cfg : SPMCfg) (ps : ℝ) : ℕ → ℕ → ℝ :=
  fun r _t => 1 / (1 + Real.exp (-((ps - precisionBinDist cfg ps r) / 5)))

/-- The concrete SPM configuration of the spec's numeric examples:
`N_r = 10`, `N_θ = 12`, `d_max = 300` (the constructor default), and the
default kernel widths `σ_r = σ_θ = 0.5`. -/
noncomputable def cfgEx : SPMCfg := ⟨10, 12, 300, 0.5, 0.5⟩

lemma exp_four_ge_nine : (9 : ℝ) ≤ Real.exp 4 := by
  have h2 : (3 : ℝ) ≤ Real.exp 2 := by
    have := Real.add_one_le_exp (2 : ℝ)
    linarith
  have h4 : Real.exp 4 = Real.exp 2 * Real.exp 2 := by
    rw [← Real.exp_add]
    norm_num
  nlinarith [Real.exp_pos (2 : ℝ)]

/-- C5: every row of `get_precision_matrix` is constant across angular bins,
bin 0 is assigned the sigmoid at recovered distance `0`, all entries lie in
`[0, 1]`, and for `personal_space = 20` (with `τ = 5` hard-coded) the entry at
bin 0 is within `0.1` of `1` while the entry at the outermost bin 9 of the
`N_r = 10`, `d_max = 300` configuration is within `0.1` of `0`. -/
theorem precision_matrix_sigmoid_of_distance :
    (∀ (cfg : SPMCfg) (ps : ℝ) (r t t' : ℕ),
        get_precision_matrix cfg ps r t = get_precision_matrix cfg ps r t') ∧
      (∀ (cfg : SPMCfg) (ps : ℝ), precisionBinDist cfg ps 0 = 0) ∧
      (∀ (cfg : SPMCfg) (ps : ℝ) (r t : ℕ),
        0 ≤ get_precision_matrix cfg ps r t ∧
          get_precision_matrix cfg ps r t ≤ 1) ∧
      (∀ t : ℕ, |get_precision_matrix cfgEx 20 0 t - 1| ≤ 0.1) ∧
      (∀ t : ℕ, |get_precision_matrix cfgEx 20 9 t - 0| ≤ 0.1) := by
  have hbounds : ∀ (cfg : SPMCfg) (ps : ℝ) (r t : ℕ),
      0 ≤ get_precision_matrix cfg ps r t ∧
        get_precision_matrix cfg ps r t ≤ 1 := by
    intro cfg ps r t
    unfold get_precision_matrix
    have he := Real.exp_pos (-((ps - precisionBinDist cfg ps r) / 5))
    constructor
    · positivity
    · rw [div_le_one (by linarith)]
      linarith
  refine ⟨fun cfg ps r t t' => rfl, fun cfg ps => rfl, hbounds, ?_, ?_⟩
  · intro t
    have hd0 : precisionBinDist cfgEx 20 0 = 0 := rfl
    have hval : get_precision_matrix cfgEx 20 0 t =
        1 / (1 + Real.exp (-4)) := by
      unfold get_precision_matrix
      rw [hd0]
      norm_num
    rw [hval]
    have hexp : Real.exp (-4 : ℝ) ≤ 1 / 9 := by
      rw [Real.exp_neg]
      rw [inv_le_comm₀ (Real.exp_pos 4) (by norm_num)]
      calc (1 / 9 : ℝ)⁻¹ = 9 := by norm_num
        _ ≤ Real.exp 4 := exp_four_ge_nine
    have hepos := Real.exp_pos (-4 : ℝ)
    rw [abs_le]
    constructor
    · have : (0.9 : ℝ) ≤ 1 / (1 + Real.exp (-4)) := by
        rw [le_div_iff₀ (by linarith)]
        nlinarith
      linarith
    · have : 1 / (1 + Real.exp (-4 : ℝ)) ≤ 1 := by
        rw [div_le_one (by linarith)]
        linarith
      linarith
  · intro t
    have hΔ : (0 : ℝ) < Real.log 300 - Real.log 20 + 1e-6 := by
      have hlt : Real.log 20 < Real.log 300 :=
        Real.log_lt_log (by norm_num) (by norm_num)
      have h6 : (0 : ℝ) < 1e-6 := by norm_num
      linarith
    have hdist : precisionBinDist cfgEx 20 9 =
        Real.exp (Real.log 300 + 1e-6) := by
      unfold precisionBinDist
      rw [if_neg (by norm_num)]
      congr 1
      have hnum : ((9 : ℕ) : ℝ) - 1 = 8 := by norm_num
      have hNr : ((cfgEx.Nr : ℝ) - 2) = 8 := by norm_num [cfgEx]
      have hdm : cfgEx.d_max = 300 := rfl
      rw [hnum, hNr, hdm]
      rw [div_div_eq_mul_div, mul_comm, mul_div_assoc]
      rw [div_self (by norm_num), mul_one]
      ring
    have hge : (300 : ℝ) ≤ precisionBinDist cfgEx 20 9 := by
      rw [hdist, Real.exp_add, Real.exp_log (by norm_num)]
      have h1 : (1 : ℝ) ≤ Real.exp 1e-6 := by
        have := Real.add_one_le_exp (1e-6 : ℝ)
        linarith
      nlinarith
    have hval : get_precision_matrix cfgEx 20 9 t =
        1 / (1 + Real.exp ((precisionBinDist cfgEx 20 9 - 20) / 5)) := by
      unfold get_precision_matrix
      congr 2
      ring_nf
    have harg : (56 : ℝ) ≤ (precisionBinDist cfgEx 20 9 - 20) / 5 := by
      rw [le_div_iff₀ (by norm_num)]
      linarith
    have hexp : (57 : ℝ) ≤ Real.exp ((precisionBinDist cfgEx 20 9 - 20) / 5) := by
      calc (57 : ℝ) = 56 + 1 := by norm_num
        _ ≤ Real.exp 56 := Real.add_one_le_exp 56
        _ ≤ Real.exp ((precisionBinDist cfgEx 20 9 - 20) / 5) :=
            Real.exp_le_exp.mpr harg
    rw [hval, sub_zero, abs_le]
    have hepos := Real.exp_pos ((precisionBinDist cfgEx 20 9 - 20) / 5)
    constructor
    · have : (0 : ℝ) ≤ 1 / (1 + Real.exp ((precisionBinDist cfgEx 20 9 - 20) / 5)) := by
        positivity
      linarith
    · rw [div_le_iff₀ (by linarith)]
      nlinarith

lemma normalize_angle_zero : normalize_angle 0 = 0 := by
  unfold normalize_angle pymod
  have hpi := Real.pi_pos
  have hhalf : (0 + Real.pi) / (2 * Real.pi) = 1 / 2 := by
    rw [zero_add, mul_comm, div_mul_eq_div_div, div_self (ne_of_gt hpi)]
  rw [hhalf]
  have hfloor : ⌊(1 / 2 : ℝ)⌋ = 0 := by
    rw [Int.floor_eq_zero_iff]
    constructor <;> norm_num
  rw [hfloor]
  push_cast
  ring

lemma arctan2_zero_of_nonneg (x : ℝ) (hx : 0 ≤ x) : arctan2 0 x = 0 := by
  unfold arctan2
  have hc : (⟨x, 0⟩ : ℂ) = (x : ℂ) := by
    apply Complex.ext <;> simp
  rw [hc]
  exact Complex.arg_ofReal_of_nonneg hx

lemma thetaCenter_twelve_zero (cfg : SPMCfg) (hNt : cfg.Ntheta = 12) :
    thetaCenter cfg 0 = 6 := by
  unfold thetaCenter
  have hpi := Real.pi_pos
  have hhalf : (0 + Real.pi) / (2 * Real.pi) = 1 / 2 := by
    rw [zero_add, mul_comm, div_mul_eq_div_div, div_self (ne_of_gt hpi)]
  rw [hhalf, hNt]
  norm_num

lemma splatCell_eval_out (cfg : SPMCfg) (rc a vr vt : ℝ) (T : Tensor) (r t : ℤ)
    (c i j : ℕ) (h : ¬(0 ≤ r ∧ r < (cfg.Nr : ℤ))) :
    splatCell cfg rc a vr vt T r t c i j = T c i j := by
  unfold splatCell
  rw [if_neg h]

lemma splatCell_eval_pass (cfg : SPMCfg) (rc a vr vt : ℝ) (T : Tensor) (r t : ℤ)
    (c i j : ℕ) (h : i ≠ r.toNat ∨ j ≠ (t % (cfg.Ntheta : ℤ)).toNat) :
    splatCell cfg rc a vr vt T r t c i j = T c i j := by
  unfold splatCell
  by_cases hb : 0 ≤ r ∧ r < (cfg.Nr : ℤ)
  · rw [if_pos hb]
    unfold addAt
    rw [if_neg]
    intro hc
    rcases h with h | h
    · exact h hc.2.1
    · exact h hc.2.2
  · rw [if_neg hb]

lemma cfgEx_Nr : cfgEx.Nr = 10 := rfl

lemma cfgEx_Ntheta : cfgEx.Ntheta = 12 := rfl

lemma cfgEx_d_max : cfgEx.d_max = 300 := rfl

lemma splatCell_hit_center (cfg : SPMCfg) (hNr : cfg.Nr = 10)
    (hNt : cfg.Ntheta = 12) (vr vt : ℝ) (T : Tensor) :
    splatCell cfg 0 0 vr vt T 0 6 0 0 6 = T 0 0 6 + 1 := by
  unfold splatCell addAt
  have htn : Int.toNat 6 = 6 := rfl
  have hb2 : (1 : ℝ) / 2 * (2 * Real.pi) - Real.pi = 0 := by ring
  norm_num [hNr, hNt, htn, hb2, normalize_angle_zero]

/-- Reading the Gaussian splat of an entity with `r_center = 0`,
`theta_center = 6`, ego-frame angle `0` at tensor entry `(0, 0, 6)`: the only
kernel cell that writes this entry is the central one, whose weight is
`exp 0 = 1`. -/
lemma splat_eval_center (cfg : SPMCfg) (hNr : cfg.Nr = 10)
    (hNt : cfg.Ntheta = 12) (T : Tensor) (vr vt : ℝ) :
    splat cfg 0 6 0 vr vt T 0 0 6 = T 0 0 6 + 1 := by
  have hr5 : List.range 5 = [0, 1, 2, 3, 4] := rfl
  have hround6 : round (6 : ℝ) = 6 := by
    rw [show (6 : ℝ) = ((6 : ℤ) : ℝ) by norm_num, round_intCast]
  simp only [splat, round_zero, hround6, hr5, List.foldl_cons, List.foldl_nil]
  simp [splatCell_eval_out, splatCell_eval_pass, hNr, hNt]
  rw [splatCell_hit_center cfg hNr hNt]
  simp [splatCell_eval_out, splatCell_eval_pass, hNr, hNt]

lemma addToTensor_intimate (cfg : SPMCfg) (T : Tensor) (dist angle v_r v_t ps : ℝ)
    (h : dist ≤ ps) :
    addToTensor cfg T dist angle v_r v_t ps =
      splat cfg 0 (thetaCenter cfg angle) angle v_r v_t T := by
  unfold addToTensor
  rw [if_pos h]

/-- Evaluating the encoder on a single obstacle at distance `dist` directly
ahead of an ego agent at the origin with orientation `0` and zero velocity, in
a `1000×1000` world: entry `(0, 0, 6)` of the tensor is exactly `1` whenever
`0 ≤ dist ≤ min ps d_max` (here instantiated per configuration). -/
lemma compute_spm_single_ahead (cfg : SPMCfg) (hNr : cfg.Nr = 10)
    (hNt : cfg.Ntheta = 12) (dist ps : ℝ) (h0 : 0 ≤ dist) (h500 : dist ≤ 500)
    (hdm : ¬dist > cfg.d_max) (hps : dist ≤ ps) :
    compute_spm cfg (0, 0) (0, 0) 0 ps [Entity.obstacleE (dist, 0)] 1000 1000
      0 0 6 = 1 := by
  have htd : toroidal_distance (0, 0) (dist, 0) 1000 1000 = (dist, 0, dist) := by
    rw [toroidal_distance_eval (0, 0) (dist, 0) 1000 1000
      (by rw [abs_le]; constructor <;> simp <;> linarith)
      (by norm_num)]
    norm_num
    exact Real.sqrt_sq h0
  have hangle : arctan2 0 dist = 0 := arctan2_zero_of_nonneg dist h0
  simp only [compute_spm, List.foldl_cons, List.foldl_nil, Entity.pos]
  rw [htd]
  norm_num [hangle, normalize_angle_zero, hdm]
  rw [addToTensor_intimate cfg _ dist 0 0 0 ps hps,
    thetaCenter_twelve_zero cfg hNt, splat_eval_center cfg hNr hNt]
  norm_num

/-- C4: an entity within personal space (and within `d_max`, or it would have
been skipped before binning) is always mapped to radial bin 0 — its splat is
centred at radial coordinate `0` — and concretely, with `N_r = 10`,
`N_θ = 12`, `personal_space = 20`, a single entity at distance `10` directly
ahead yields `tensor[0, 0, 6] = 1 > 0.1`. -/
theorem spm_personal_space_maps_to_bin_zero :
    (∀ (cfg : SPMCfg) (T : Tensor) (dist angle v_r v_t ps : ℝ), dist ≤ ps →
        addToTensor cfg T dist angle v_r v_t ps =
          splat cfg 0 (thetaCenter cfg angle) angle v_r v_t T) ∧
      0.1 < compute_spm cfgEx (0, 0) (0, 0) 0 20 [Entity.obstacleE (10, 0)]
        1000 1000 0 0 6 := by
  constructor
  · intro cfg T dist angle v_r v_t ps h
    exact addToTensor_intimate cfg T dist angle v_r v_t ps h
  · rw [compute_spm_single_ahead cfgEx cfgEx_Nr cfgEx_Ntheta 10 20 (by norm_num)
      (by norm_num) (by rw [cfgEx_d_max]; norm_num) (by norm_num)]
    norm_num

/-- C4 witness: the bin-0 mapping instantiated at `dist = 10 ≤ ps = 20`,
together with the concrete tensor entry. -/
theorem spm_personal_space_maps_to_bin_zero_witness :
    (addToTensor cfgEx (fun _ _ _ => 0) 10 0 0 0 20 =
        splat cfgEx 0 (thetaCenter cfgEx 0) 0 0 0 (fun _ _ _ => 0)) ∧
      0.1 < compute_spm cfgEx (0, 0) (0, 0) 0 20 [Entity.obstacleE (10, 0)]
        1000 1000 0 0 6 :=
  ⟨spm_personal_space_maps_to_bin_zero.1 cfgEx (fun _ _ _ => 0) 10 0 0 0 20
      (by norm_num),
    spm_personal_space_maps_to_bin_zero.2⟩

/-- The degenerate configuration of C7: `d_max = 10` is not above the personal
space `20` used alongside it. -/
noncomputable def cfgDeg : SPMCfg := ⟨10, 12, 10, 0.5, 0.5⟩

/-- C7 counterexample: with `d_max = 10 ≤ personal_space = 20`, an entity at
distance `5` directly ahead is *not* skipped: it lands in the intimate branch
and contributes `1` to occupancy entry `(0, 0, 6)`, refuting "the entity
contributes nothing to the tensor". -/
theorem spm_dmax_le_ps_entity_still_contributes :
    cfgDeg.d_max ≤ 20 ∧
      compute_spm cfgDeg (0, 0) (0, 0) 0 20 [Entity.obstacleE (5, 0)]
        1000 1000 0 0 6 = 1 := by
  constructor
  · rw [show cfgDeg.d_max = 10 from rfl]
    norm_num
  · exact compute_spm_single_ahead cfgDeg rfl rfl 5 20 (by norm_num)
      (by norm_num) (by rw [show cfgDeg.d_max = 10 from rfl]; norm_num)
      (by norm_num)

/-- C7 amended: when `d_max ≤ personal_space` the encoder skips (leaves the
tensor unchanged for) exactly the entities *beyond* personal space — the
degenerate logarithmic branch — while an entity within personal space is still
binned normally into radial bin 0; no branch raises an exception, so
`compute_spm` completes normally in this configuration. -/
theorem spm_dmax_le_ps_skips_only_log_branch :
    (∀ (cfg : SPMCfg) (T : Tensor) (dist angle v_r v_t ps : ℝ),
        ps < dist → cfg.d_max ≤ ps →
        addToTensor cfg T dist angle v_r v_t ps = T) ∧
      compute_spm cfgDeg (0, 0) (0, 0) 0 20 [Entity.obstacleE (5, 0)]
        1000 1000 0 0 6 = 1 := by
  constructor
  · intro cfg T dist angle v_r v_t ps hdist hdm
    unfold addToTensor
    rw [if_neg (not_le.mpr hdist), if_pos hdm]
  · exact compute_spm_single_ahead cfgDeg rfl rfl 5 20 (by norm_num)
      (by norm_num) (by rw [show cfgDeg.d_max = 10 from rfl]; norm_num)
      (by norm_num)

/-- C7 witness: the skip instantiated at `ps = 20 < dist = 25` with
`d_max = 10 ≤ 20`, together with the concrete in-personal-space contribution. -/
theorem spm_dmax_le_ps_skips_only_log_branch_witness :
    (addToTensor cfgDeg (fun _ _ _ => 0) 25 0 0 0 20 = fun _ _ _ => 0) ∧
      compute_spm cfgDeg (0, 0) (0, 0) 0 20 [Entity.obstacleE (5, 0)]
        1000 1000 0 0 6 = 1 :=
  ⟨spm_dmax_le_ps_skips_only_log_branch.1 cfgDeg (fun _ _ _ => 0) 25 0 0 0 20
      (by norm_num) (by rw [show cfgDeg.d_max = 10 from rfl]; norm_num),
    spm_dmax_le_ps_skips_only_log_branch.2⟩

/-! ### Sampling EPH controller (eph.py) and gradient-variant haze modulation
(eph_gradient.py) -/

/-- The agent fields `EPHController.decide_action` reads. -/
structure CtlAgent where
  velocity : ℝ × ℝ
  orientation : ℝ
  max_speed : ℝ

/-- The mutable state of `EPHController` (and of `GradientEPHController`'s
haze bookkeeping). -/
structure EPHState where
  haze_self : ℝ
  stuck_counter : ℤ

/-- `EPHController.__init__` (`eph.py` lines 7-8): `haze_self = 0.0`,
`stuck_counter = 0`. -/
def EPHState.init : EPHState := ⟨0, 0⟩

/-- The stuck-counter half of the self-haze update at the top of
`decide_action` (`eph.py` lines 17-21; verbatim duplicate in
`eph_gradient.py` lines 27-31): if `speed < 5.0` the counter is incremented,
else decremented with floor `0`. -/
noncomputable def hazeStuck (speed : ℝ) (s : EPHState) : ℤ :=
  if speed < 5 then s.stuck_counter + 1 else max 0 (s.stuck_counter - 1)

/-- The state after the full self-haze update (`eph.py` lines 16-26): the
counter update above, then — keyed on the *updated* counter exceeding `50` —
`haze_self` rises by `0.05` capped at `1.0`, else decays by `0.01` floored at
`0.0`. -/
noncomputable def hazeUpdate (speed : ℝ) (s : EPHState) : EPHState :=
  ⟨if hazeStuck speed s > 50 then min 1 (s.haze_self + 0.05)
    else max 0 (s.haze_self - 0.01), hazeStuck speed s⟩

/-- A precision matrix, as a total function on `(r, θ)` indices. -/
def Mat : Type := ℕ → ℕ → ℝ

/-- The frontal-sector self-haze attenuation (`eph.py` lines 41-59;
`eph_gradient.py` lines 98-108): when `haze_self > 0`, every column
`t % Ntheta` for `t` in `[Ntheta/2 - Ntheta/6, Ntheta/2 + Ntheta/6]` is scaled
by `(1 - haze_self)²`.  The writes target the copy made of the caller's
matrix, which this function threads functionally. -/
noncomputable def applySelfHaze (haze_self : ℝ) (Ntheta : ℕ) (p : Mat) : Mat :=
  if haze_self > 0 then
    (List.range (2 * (Ntheta / 6) + 1)).foldl (fun M k =>
      fun r c =>
        if c = (Ntheta / 2 - Ntheta / 6 + k) % Ntheta then
          M r c * (1 - haze_self) ^ 2
        else M r c) p
  else p

/-- The global environmental-haze attenuation
(`eph.py` line 65; `eph_gradient.py` line 111): the whole matrix is scaled by
`(1 - env_haze_value)²`. -/
noncomputable def applyEnvHaze (env_haze_value : ℝ) (p : Mat) : Mat :=
  fun r c => p r c * (1 - env_haze_value) ^ 2

/-- The complete haze modulation of the sampling controller
(`eph.py` lines 38-65), applied to the copy of the caller's matrix. -/
noncomputable def modulatePrecision (haze_self env_haze_value : ℝ)
    (Ntheta : ℕ) (p : Mat) : Mat :=
  applyEnvHaze env_haze_value (applySelfHaze haze_self Ntheta p)

/-- `GradientEPHController._apply_haze` (`eph_gradient.py` lines 93-113): the
first component is the modulated copy it returns; the second component models
the final contents of the caller's `precision_matrix` buffer, which the
`.copy()` on line 95 shields from every write. -/
noncomputable def apply_haze (haze_self env_haze_value : ℝ) (Ntheta : ℕ)
    (precision_matrix : Mat) : Mat × Mat :=
  (applyEnvHaze env_haze_value (applySelfHaze haze_self Ntheta precision_matrix),
    precision_matrix)

/-- The candidate set of the sampling controller (`eph.py` lines 69-82):
16 headings at `max_speed`, then stop, then the current velocity. -/
noncomputable def candidates (ag : CtlAgent) : List (ℝ × ℝ) :=
  ((List.range 16).map fun i =>
      (ag.max_speed * Real.cos ((i : ℝ) / 16 * (2 * Real.pi)),
        ag.max_speed * Real.sin ((i : ℝ) / 16 * (2 * Real.pi)))) ++
    [(0, 0)] ++ [(ag.velocity.1, ag.velocity.2)]

/-- `EPHController._evaluate_action` (`eph.py` lines 95-185): risk is the sum
over all bins of `occupancy · precision · max 0 v_radial`, where the action is
rotated into the agent frame and projected on each bin's outward direction
(bin centres `-π + (t + 1/2)·2π/Ntheta`); plus the instrumental term —
`0.5·‖a - preferred‖²` with a preferred velocity, else `-0.1·‖a‖`. -/
noncomputable def evaluateAction (orientation : ℝ) (Nr Ntheta : ℕ)
    (action : ℝ × ℝ) (spm_tensor : Tensor) (precision : Mat)
    (preferred_velocity : Option (ℝ × ℝ)) : ℝ :=
  let vx := action.1
  let vy := action.2
  let ax := vx * Real.cos (-orientation) - vy * Real.sin (-orientation)
  let ay := vx * Real.sin (-orientation) + vy * Real.cos (-orientation)
  let v_rad := fun t : ℕ =>
    ax * Real.cos (-Real.pi + ((t : ℝ) + 1 / 2) * (2 * Real.pi / Ntheta)) +
      ay * Real.sin (-Real.pi + ((t : ℝ) + 1 / 2) * (2 * Real.pi / Ntheta))
  let risk := ∑ r ∈ Finset.range Nr, ∑ t ∈ Finset.range Ntheta,
    spm_tensor 0 r t * precision r t * max 0 (v_rad t)
  match preferred_velocity with
  | some pv => risk + 0.5 * ((vx - pv.1) ^ 2 + (vy - pv.2) ^ 2)
  | none => risk - 0.1 * Real.sqrt (vx ^ 2 + vy ^ 2)

/-- The argmin loop of `decide_action` (`eph.py` lines 84-91): starts from
`best = (0,0)` with `min_cost = inf` (modelled as `none`), takes the first
strict improvement. -/
noncomputable def selectAction (cost : ℝ × ℝ → ℝ) (cands : List (ℝ × ℝ)) :
    ℝ × ℝ :=
  (cands.foldl (fun best a =>
      match best.2 with
      | none => (a, some (cost a))
      | some m => if cost a < m then (a, some (cost a)) else best)
    ((0, 0), (none : Option ℝ))).1

/-- What a call to `EPHController.decide_action` leaves behind: the returned
velocity, the controller's state after the call, and the final contents of the
caller-owned `precision_matrix` buffer (modelling numpy's in-place mutation
functionally). -/
structure DecideResult where
  action : ℝ × ℝ
  state : EPHState
  precisionOut : Mat

/-- `EPHController.decide_action` (`eph.py` lines 10-93): update the self-haze
state from the agent's current speed, modulate a copy of the precision matrix
by self- and environmental haze, then pick the argmin-cost candidate.  The
caller's `precision_matrix` buffer is returned unchanged because line 38
copies it before any write. -/
noncomputable def decide_action (s : EPHState) (ag : CtlAgent) (Nr Ntheta : ℕ)
    (spm_tensor : Tensor) (precision_matrix : Mat) (env_haze_value : ℝ)
    (preferred_velocity : Option (ℝ × ℝ)) : DecideResult :=
  let speed := Real.sqrt (ag.velocity.1 ^ 2 + ag.velocity.2 ^ 2)
  let s2 := hazeUpdate speed s
  let modulated :=
    modulatePrecision s2.haze_self env_haze_value Ntheta precision_matrix
  let act := selectAction
    (fun a =>
      evaluateAction ag.orientation Nr Ntheta a spm_tensor modulated
        preferred_velocity)
    (candidates ag)
  ⟨act, s2, precision_matrix⟩

/-- C2 counterexample: `decide_action` is not stateless.  With the agent at
rest (speed `0 < 5`) and a fresh controller, one call increments
`stuck_counter` from `0` to `1`, so the controller state is not left
unchanged. -/
lemma hazeUpdate_stuck (speed : ℝ) (s : EPHState) :
    (hazeUpdate speed s).stuck_counter = hazeStuck speed s := rfl

lemma hazeUpdate_haze_self (speed : ℝ) (s : EPHState) :
    (hazeUpdate speed s).haze_self =
      if hazeStuck speed s > 50 then min 1 (s.haze_self + 0.05)
      else max 0 (s.haze_self - 0.01) := rfl

theorem decide_action_mutates_state :
    (decide_action EPHState.init ⟨(0, 0), 0, 50⟩ 10 12 (fun _ _ _ => 0)
        (fun _ _ => 0) 0 none).state ≠ EPHState.init := by
  intro h
  have hc := congrArg EPHState.stuck_counter h
  rw [show (decide_action EPHState.init ⟨(0, 0), 0, 50⟩ 10 12 (fun _ _ _ => 0)
      (fun _ _ => 0) 0 none).state =
      hazeUpdate (Real.sqrt ((0 : ℝ) ^ 2 + 0 ^ 2)) EPHState.init from rfl,
    hazeUpdate_stuck] at hc
  unfold hazeStuck EPHState.init at hc
  rw [if_pos (by norm_num : Real.sqrt ((0 : ℝ) ^ 2 + 0 ^ 2) < 5)] at hc
  norm_num at hc

/-- C2 amended: `decide_action` is deterministic but not stateless — its
state transition is exactly the self-haze update, a function of the previous
controller state and the agent's current speed alone, unaffected by the SPM
tensor, the precision matrix, the environmental haze or the preferred
velocity; no other controller or agent field is written. -/
theorem decide_action_state_footprint :
    ∀ (s : EPHState) (ag : CtlAgent) (Nr Ntheta Nr2 Ntheta2 : ℕ)
      (spm spm2 : Tensor) (p p2 : Mat) (env env2 : ℝ)
      (pv pv2 : Option (ℝ × ℝ)),
      (decide_action s ag Nr Ntheta spm p env pv).state =
          hazeUpdate (Real.sqrt (ag.velocity.1 ^ 2 + ag.velocity.2 ^ 2)) s ∧
        (decide_action s ag Nr Ntheta spm p env pv).state =
          (decide_action s ag Nr2 Ntheta2 spm2 p2 env2 pv2).state :=
  fun _ _ _ _ _ _ _ _ _ _ _ _ _ _ => ⟨rfl, rfl⟩

/-- C9: in both controller variants the haze modulation writes only to the
copy of the precision matrix: after `decide_action` (sampling variant) the
caller's buffer holds exactly its old values, and `_apply_haze` (gradient
variant) likewise returns the caller's buffer untouched — for every input,
including non-zero self-haze and environmental haze. -/
theorem haze_modulation_preserves_caller_precision :
    ∀ (s : EPHState) (ag : CtlAgent) (Nr Ntheta : ℕ) (spm : Tensor) (p : Mat)
      (env : ℝ) (pv : Option (ℝ × ℝ)) (hz : ℝ),
      (decide_action s ag Nr Ntheta spm p env pv).precisionOut = p ∧
        (apply_haze hz env Ntheta p).2 = p :=
  fun _ _ _ _ _ _ _ _ _ => ⟨rfl, rfl⟩

/-! ### The self-haze trajectory (C3) -/

/-- The controller state after `n` consecutive `decide_action` calls whose
observed agent speeds are `speeds 0, …, speeds (n-1)`, starting from the
constructor state. -/
noncomputable def runHaze (speeds : ℕ → ℝ) : ℕ → EPHState
  | 0 => EPHState.init
  | n + 1 => hazeUpdate (speeds n) (runHaze speeds n)

lemma min_one_add_shift (x c : ℝ) (hc : 0 ≤ c) :
    min 1 (min 1 x + c) = min 1 (x + c) := by
  rcases le_total 1 x with h | h
  · rw [min_eq_left h, min_eq_left (by linarith), min_eq_left (by linarith)]
  · rw [min_eq_right h]

lemma runHaze_zero_counter (n : ℕ) :
    (runHaze (fun _ => 0) n).stuck_counter = n := by
  induction n with
  | zero => rfl
  | succ k ih =>
      show (hazeUpdate 0 (runHaze (fun _ => 0) k)).stuck_counter = ((k + 1 : ℕ) : ℤ)
      rw [hazeUpdate_stuck]
      unfold hazeStuck
      rw [if_pos (by norm_num : (0 : ℝ) < 5), ih]
      push_cast
      ring

lemma runHaze_zero_haze (n : ℕ) :
    (runHaze (fun _ => 0) n).haze_self =
      if n ≤ 50 then 0 else min 1 (0.05 * ((n : ℝ) - 50)) := by
  induction n with
  | zero => rfl
  | succ k ih =>
      have hstuck : hazeStuck 0 (runHaze (fun _ => 0) k) = (k : ℤ) + 1 := by
        unfold hazeStuck
        rw [if_pos (by norm_num : (0 : ℝ) < 5), runHaze_zero_counter k]
      show (hazeUpdate 0 (runHaze (fun _ => 0) k)).haze_self = _
      rw [hazeUpdate_haze_self, hstuck]
      by_cases hk : k + 1 ≤ 50
      · have hgt : ¬((k : ℤ) + 1 > 50) := by omega
        rw [if_neg hgt, if_pos hk, ih, if_pos (by omega : k ≤ 50)]
        rw [show (0 : ℝ) - 0.01 = -0.01 by norm_num, max_eq_left (by norm_num)]
      · have hgt : (k : ℤ) + 1 > 50 := by omega
        rw [if_pos hgt, if_neg hk]
        by_cases hk51 : k ≤ 50
        · have hk50 : k = 50 := by omega
          rw [ih, if_pos hk51, hk50]
          norm_num
        · rw [ih, if_neg hk51]
          rw [min_one_add_shift _ _ (by norm_num)]
          push_cast
          ring_nf

/-- C3 counterexample: from a fresh controller, after `70` consecutive steps
at speed `0 < 5` the self-haze has saturated at exactly `1.0`, and the `71`-st
slow step — well past the promised `≥ 51` — leaves it at `1.0`: no strict
increase on that subsequent slow step. -/
theorem selfHaze_saturates_at_one :
    (runHaze (fun _ => 0) 70).haze_self = 1 ∧
      (runHaze (fun _ => 0) 71).haze_self = 1 := by
  rw [runHaze_zero_haze, runHaze_zero_haze]
  norm_num

/-- C3 amended: self-haze is `0` at construction, and along any run of
consecutive decide steps with speed `< 5.0`, after at least `51` such steps
every further slow step strictly increases `haze_self` *as long as it is still
below its cap `1.0`* (at the cap it stays exactly `1.0`). -/
theorem selfHaze_strictly_increases_below_cap (speeds : ℕ → ℝ) (n : ℕ)
    (hslow : ∀ i, speeds i < 5) (hn : 51 ≤ n)
    (hlt : (runHaze speeds n).haze_self < 1) :
    (runHaze speeds 0).haze_self = 0 ∧
      (runHaze speeds n).haze_self < (runHaze speeds (n + 1)).haze_self := by
  refine ⟨rfl, ?_⟩
  have hcounter : ∀ m, (runHaze speeds m).stuck_counter = m := by
    intro m
    induction m with
    | zero => rfl
    | succ k ih =>
        show (hazeUpdate (speeds k) (runHaze speeds k)).stuck_counter = _
        rw [hazeUpdate_stuck]
        unfold hazeStuck
        rw [if_pos (hslow k), ih]
        push_cast
        ring
  have hstuck : hazeStuck (speeds n) (runHaze speeds n) = (n : ℤ) + 1 := by
    unfold hazeStuck
    rw [if_pos (hslow n), hcounter n]
  have hgt : (n : ℤ) + 1 > 50 := by omega
  show (runHaze speeds n).haze_self <
    (hazeUpdate (speeds n) (runHaze speeds n)).haze_self
  rw [hazeUpdate_haze_self, hstuck, if_pos hgt]
  exact lt_min (by linarith) (by linarith)

/-- C3 witness: the amended statement at constant speed `0`, `n = 51`; the
hypothesis `haze_self < 1` holds there since the haze is only `0.05`. -/
theorem selfHaze_strictly_increases_below_cap_witness :
    (runHaze (fun _ => 0) 0).haze_self = 0 ∧
      (runHaze (fun _ => 0) 51).haze_self < (runHaze (fun _ => 0) 52).haze_self :=
  selfHaze_strictly_increases_below_cap (fun _ => 0) 51
    (fun _ => by norm_num) (by norm_num)
    (by rw [runHaze_zero_haze]; norm_num)

end CrlEPH
